import Mathlib

/-!
# Event retrieval pipeline of `pkg/flowkit/services/events.go`

A shallow embedding of the range resolver (`CalculateStartEnd`), the query
planner (`makeEventQueries`), the worker (`eventWorker`) and the aggregator
(`Get`), followed by the properties established about them.

Go's `uint64` values are natural numbers below `2 ^ 64`; every arithmetic
operation of the source is reduced modulo `2 ^ 64` explicitly.
-/

namespace Events

/-! ## Machine integers -/

/-- Number of values of Go's `uint64`. -/
def u64Mod : Nat := 2 ^ 64

/-- Go's `a + b` on `uint64`. -/
def u64add (a b : Nat) : Nat := (a + b) % u64Mod

/-- Go's `a - b` on `uint64` (wraps around below zero). -/
def u64sub (a b : Nat) : Nat := (a + (u64Mod - b % u64Mod)) % u64Mod

/-! ## Data model -/

/-- The `client.EventRangeQuery` of the SDK: an event type and an inclusive
height range. -/
structure EventRangeQuery where
  EventType : String
  StartHeight : Nat
  EndHeight : Nat
  deriving DecidableEq, Repr

/-! ## Query planner -/

/-- The `for startHeight <= endHeight` loop of `makeEventQueries`.  The loop
of the source has no bound of its own, so the embedding counts iterations:
`none` means the loop was still running when the fuel ran out. -/
def makeEventQueriesLoop (events : List String) (endHeight blockCount : Nat) :
    Nat → Nat → List EventRangeQuery → Option (List EventRangeQuery)
  | 0, _, _ => none
  | fuel + 1, startHeight, queries =>
    if startHeight ≤ endHeight then
      let suggestedEndHeight := u64sub (u64add startHeight blockCount) 1
      let endHeight' := if suggestedEndHeight < endHeight then suggestedEndHeight else endHeight
      makeEventQueriesLoop events endHeight blockCount fuel (u64add suggestedEndHeight 1)
        (queries ++ events.map (fun event => EventRangeQuery.mk event startHeight endHeight'))
    else
      some queries

/-- The planner `makeEventQueries(events, startHeight, endHeight, blockCount)`,
run for at most `fuel` evaluations of the loop condition. -/
def makeEventQueries (fuel : Nat) (events : List String)
    (startHeight endHeight blockCount : Nat) : Option (List EventRangeQuery) :=
  makeEventQueriesLoop events endHeight blockCount fuel startHeight []

/-- The `i`-th sub-range of the plan as the specification words it:
`[start + i*maxSpan, min(start + (i+1)*maxSpan - 1, end)]`. -/
def subRange (start stop maxSpan i : Nat) : Nat × Nat :=
  (start + i * maxSpan, min (start + (i + 1) * maxSpan - 1) stop)

/-- Number of sub-ranges of `[start, stop]` of span `maxSpan`. -/
def subRangeCount (start stop maxSpan : Nat) : Nat :=
  (stop - start) / maxSpan + 1

/-- The plan as the specification words it: walk the sub-ranges in ascending
order and emit, for each one, a query per event type in input order. -/
def planSpec (events : List String) (start stop maxSpan : Nat) : List EventRangeQuery :=
  (List.range (subRangeCount start stop maxSpan)).flatMap
    (fun i => events.map
      (fun event => EventRangeQuery.mk event (subRange start stop maxSpan i).1
        (subRange start stop maxSpan i).2))

/-- The height ranges of the queries of one event type, in plan order. -/
def rangesOf (eventType : String) (queries : List EventRangeQuery) : List (Nat × Nat) :=
  (queries.filter (fun q => q.EventType = eventType)).map
    (fun q => (q.StartHeight, q.EndHeight))

/-- Coverage of `[start, stop]` by a sequence of inclusive ranges: contiguous
(each starts one past the end of the previous one), non-overlapping, each a
range of length at most `maxSpan`, the first one starting at `start`, the last
one ending at `stop`, their union exactly `[start, stop]`. -/
def Coverage (start stop maxSpan : Nat) (rs : List (Nat × Nat)) : Prop :=
  List.Chain' (fun a b => b.1 = a.2 + 1) rs ∧
  List.Pairwise (fun a b => a.2 < b.1) rs ∧
  (∀ r ∈ rs, r.1 ≤ r.2 ∧ r.2 - r.1 + 1 ≤ maxSpan) ∧
  rs.head?.map Prod.fst = some start ∧
  rs.getLast?.map Prod.snd = some stop ∧
  (∀ h, (start ≤ h ∧ h ≤ stop) ↔ ∃ r ∈ rs, r.1 ≤ h ∧ h ≤ r.2)

/-- The queries emitted for the `i`-th sub-range. -/
def chunkQueries (events : List String) (start stop maxSpan i : Nat) : List EventRangeQuery :=
  events.map (fun event => EventRangeQuery.mk event (subRange start stop maxSpan i).1
    (subRange start stop maxSpan i).2)


/-! ## Gateway and range resolver -/

/-- A Go `error` value, identified by its message. -/
abbrev GoError := String

/-- The `client.BlockEvents` of the SDK; this layer never looks inside. -/
structure BlockEvents where
  Height : Nat
  Events : List String
  deriving DecidableEq, Repr

/-- The part of `gateway.Gateway` used by the events service.
`GetLatestBlock` yields the height of the latest block or an error;
`GetEvents` yields, as in Go, both a slice and an error value. -/
structure Gateway where
  GetLatestBlock : Except GoError Nat
  GetEvents : String → Nat → Nat → List BlockEvents × Option GoError

/-- The method `Events.CalculateStartEnd(start, end, last)`; the result is the
Go triple `(uint64, uint64, error)`. -/
def CalculateStartEnd (gateway : Gateway) (start stop last : Nat) :
    Nat × Nat × Option GoError :=
  if start = 0 then
    match gateway.GetLatestBlock with
    | .error err => (0, 0, some err)
    | .ok height => (u64sub height last, height, none)
  else if stop = 0 then
    match gateway.GetLatestBlock with
    | .error err => (0, 0, some err)
    | .ok height => (start, height, none)
  else
    (start, stop, none)

/-! ## Worker and aggregator, sequential view -/

/-- The struct `EventWorkerResult`; a nil slice is the empty list. -/
structure EventWorkerResult where
  Events : List BlockEvents
  Error : Option GoError
  deriving DecidableEq, Repr

/-- What `eventWorker` sends on `results` for one query taken from `jobChan`,
in sending order: after the send in the `if err != nil` branch the body falls
through to the unconditional send. -/
def workerEmits (gateway : Gateway) (q : EventRangeQuery) : List EventWorkerResult :=
  match gateway.GetEvents q.EventType q.StartHeight q.EndHeight with
  | (blockEvents, some err) => [⟨[], some err⟩, ⟨blockEvents, none⟩]
  | (blockEvents, none) => [⟨blockEvents, none⟩]

/-- The results `eventWorker` sends while it processes `jobs`, the queries it
takes from `jobChan`, when every send finds a receiver. -/
def eventWorker (gateway : Gateway) (jobs : List EventRangeQuery) : List EventWorkerResult :=
  jobs.flatMap (workerEmits gateway)

/-- The loop `for eventResult := range results` of `Get`, applied to the
results in arrival order; `resultEvents` is the accumulator and the value is
the Go pair `([]client.BlockEvents, error)`. -/
def collectResults : List EventWorkerResult → List BlockEvents →
    List BlockEvents × Option GoError
  | [], resultEvents => (resultEvents, none)
  | eventResult :: rest, resultEvents =>
    match eventResult.Error with
    | some err => ([], some err)
    | none => collectResults rest (resultEvents ++ eventResult.Events)

/-! ## Worker pool of `Get`, as a transition system

`Get` starts `workerCount` goroutines running `eventWorker`, one goroutine
that feeds `jobChan` and closes it, one that waits for the workers and closes
`results`, and itself receives from `results`.  A state records where each
goroutine stands; an action is one goroutine completing the channel operation
it stands at, so a schedule is a list of actions.  The call of `GetEvents` is
taken together with the receive that precedes it: the gateway is a function of
the query and the call touches no channel.  `workerCount` is a natural number
(`make` panics on a negative capacity). -/

/-- Where an `eventWorker` goroutine stands. -/
inductive Worker where
  /-- At `for q := range jobChan`, waiting for a job. -/
  | recv
  /-- At `results <- EventWorkerResult{nil, err}`. -/
  | sendErr (q : EventRangeQuery) (blockEvents : List BlockEvents) (err : GoError)
  /-- At `results <- EventWorkerResult{blockEvents, nil}`. -/
  | sendOk (q : EventRangeQuery) (blockEvents : List BlockEvents)
  /-- Past the loop: `jobChan` was closed and empty. -/
  | done
  deriving DecidableEq, Repr

/-- Where the goroutine that called `Get` stands. -/
inductive Main where
  /-- In `for eventResult := range results`, holding `resultEvents`. -/
  | running (resultEvents : List BlockEvents)
  /-- Returned the Go pair `(events, err)`. -/
  | returned (events : List BlockEvents) (err : Option GoError)
  deriving DecidableEq, Repr

/-- State of one call of `Get` after `makeEventQueries`. -/
structure Pool where
  /-- Queries the feeding goroutine has not sent yet. -/
  pending : List EventRangeQuery
  /-- Contents of the buffered channel `jobChan`, oldest first. -/
  jobChan : List EventRangeQuery
  /-- Whether `close(jobChan)` has run. -/
  jobClosed : Bool
  /-- The `workerCount` worker goroutines. -/
  workers : List Worker
  /-- Whether `close(results)` has run. -/
  resultsClosed : Bool
  main : Main
  deriving DecidableEq, Repr

/-- One goroutine completing a channel operation. -/
inductive Action where
  /-- The feeding goroutine completes `jobChan <- query`. -/
  | feed
  /-- The feeding goroutine, past its loop, runs `close(jobChan)`. -/
  | closeJobs
  /-- Worker `i` completes a receive of `range jobChan`: it gets a job and
  calls `GetEvents`, or finds the channel closed and empty and returns. -/
  | take (i : Nat)
  /-- Worker `i` completes its send on the unbuffered `results`, `Get`
  receiving. -/
  | send (i : Nat)
  /-- The waiting goroutine, all workers done, runs `close(results)`. -/
  | closeResults
  /-- The loop of `Get` finds `results` closed and `Get` returns. -/
  | finish
  deriving DecidableEq, Repr

/-- State of the pool when `Get` has started its goroutines:
`jobChan` has capacity `workerCount`, `results` is unbuffered. -/
def Pool.init (queries : List EventRangeQuery) (workerCount : Nat) : Pool :=
  { pending := queries, jobChan := [], jobClosed := false,
    workers := List.replicate workerCount Worker.recv,
    resultsClosed := false, main := Main.running [] }

/-- Body of `eventWorker` from the receive of `q` up to its first send. -/
def Worker.start (gateway : Gateway) (q : EventRangeQuery) : Worker :=
  match gateway.GetEvents q.EventType q.StartHeight q.EndHeight with
  | (blockEvents, some err) => Worker.sendErr q blockEvents err
  | (blockEvents, none) => Worker.sendOk q blockEvents

/-- The result a worker is sending, and where it stands once the send has
completed: after the send of the error the body falls through to the second
send; after that one the loop receives again. -/
def Worker.offer : Worker → Option (EventWorkerResult × Worker)
  | Worker.sendErr q blockEvents err => some (⟨[], some err⟩, Worker.sendOk q blockEvents)
  | Worker.sendOk _ blockEvents => some (⟨blockEvents, none⟩, Worker.recv)
  | _ => none

/-- Body of the loop of `Get` for one received result. -/
def receiveResult (resultEvents : List BlockEvents) (eventResult : EventWorkerResult) : Main :=
  match eventResult.Error with
  | some err => Main.returned [] (some err)
  | none => Main.running (resultEvents ++ eventResult.Events)

/-- One step of the pool; `none` when the goroutine cannot complete the
operation in this state (it is blocked, or stands elsewhere). -/
def step (gateway : Gateway) (a : Action) (s : Pool) : Option Pool :=
  match a with
  | Action.feed =>
    match s.pending with
    | [] => none
    | query :: rest =>
      if s.jobChan.length < s.workers.length then
        some { s with pending := rest, jobChan := s.jobChan ++ [query] }
      else none
  | Action.closeJobs =>
    if s.pending = [] ∧ s.jobClosed = false then some { s with jobClosed := true } else none
  | Action.take i =>
    match s.workers[i]? with
    | some Worker.recv =>
      match s.jobChan with
      | q :: rest =>
        some { s with jobChan := rest, workers := s.workers.set i (Worker.start gateway q) }
      | [] =>
        if s.jobClosed = true then some { s with workers := s.workers.set i Worker.done }
        else none
    | _ => none
  | Action.send i =>
    match s.main with
    | Main.returned _ _ => none
    | Main.running resultEvents =>
      match (s.workers[i]?).bind Worker.offer with
      | some (eventResult, next) =>
        some { s with workers := s.workers.set i next,
                      main := receiveResult resultEvents eventResult }
      | none => none
  | Action.closeResults =>
    if (∀ w ∈ s.workers, w = Worker.done) ∧ s.resultsClosed = false then
      some { s with resultsClosed := true }
    else none
  | Action.finish =>
    match s.main with
    | Main.running resultEvents =>
      if s.resultsClosed = true then some { s with main := Main.returned resultEvents none }
      else none
    | Main.returned _ _ => none

/-- The pool after a schedule, a sequence of actions; `none` when some action
of the schedule cannot happen. -/
def run (gateway : Gateway) : List Action → Pool → Option Pool
  | [], s => some s
  | a :: rest, s => (step gateway a s).bind (run gateway rest)

/-- The query a worker holds between taking it and completing its sends. -/
def Worker.job : Worker → List EventRangeQuery
  | Worker.sendErr q _ _ => [q]
  | Worker.sendOk q _ => [q]
  | _ => []

/-- What an action hands to `Get`: for a send, the query the sending worker
holds together with the result it sends; nothing for any other action. -/
def Action.delivery (a : Action) (s : Pool) : List (EventRangeQuery × EventWorkerResult) :=
  match a with
  | Action.send i =>
    match s.workers[i]? with
    | some w =>
      match w.offer with
      | some (eventResult, _) => w.job.map (fun q => (q, eventResult))
      | none => []
    | none => []
  | _ => []

/-- The results `Get` receives along a schedule, in arrival order, each with
the query it answers. -/
def deliveries (gateway : Gateway) : List Action → Pool →
    List (EventRangeQuery × EventWorkerResult)
  | [], _ => []
  | a :: rest, s =>
    match step gateway a s with
    | none => []
    | some s' => a.delivery s ++ deliveries gateway rest s'

/-- The method `Events.Get(events, startHeight, endHeight, blockCount,
workerCount)`: it plans the queries with `makeEventQueries` and then runs the
pool on the plan.  `fuel` bounds the planner's loop and `schedule` is the
order in which the goroutines move; the value is the state reached, `none`
when the planner has not returned within `fuel` or the schedule cannot
happen. -/
def Get (gateway : Gateway) (fuel : Nat) (events : List String)
    (startHeight endHeight blockCount workerCount : Nat) (schedule : List Action) :
    Option Pool :=
  match makeEventQueries fuel events startHeight endHeight blockCount with
  | none => none
  | some queries => run gateway schedule (Pool.init queries workerCount)


/-- Number of steps a worker can still take on its own. -/
def Worker.weight : Worker → Nat
  | Worker.recv => 1
  | Worker.sendErr _ _ _ => 3
  | Worker.sendOk _ _ => 2
  | Worker.done => 0

/-- The events held by `Get`: the accumulator, or the returned slice. -/
def Main.events : Main → List BlockEvents
  | Main.running resultEvents => resultEvents
  | Main.returned events _ => events

/-- Whether `Get` has returned. -/
def Main.isReturned : Main → Bool
  | Main.running _ => false
  | Main.returned _ _ => true

/-- Upper bound on the number of steps the pool can still take. -/
def Pool.measure (s : Pool) : Nat :=
  4 * s.pending.length + 3 * s.jobChan.length + (s.workers.map Worker.weight).sum
    + (if s.jobClosed = true then 0 else 1) + (if s.resultsClosed = true then 0 else 1)
    + (if s.main.isReturned = true then 0 else 1)

/-- The steps of the pool as a relation, one constructor per way an action
of `step` can happen, labelled with what the step hands to `Get`. -/
inductive Moves (gateway : Gateway) :
    Pool → List (EventRangeQuery × EventWorkerResult) → Pool → Prop where
  | feed (s : Pool) (query : EventRangeQuery) (rest : List EventRangeQuery) :
      s.pending = query :: rest → s.jobChan.length < s.workers.length →
      Moves gateway s [] { s with pending := rest, jobChan := s.jobChan ++ [query] }
  | closeJobs (s : Pool) :
      s.pending = [] → s.jobClosed = false →
      Moves gateway s [] { s with jobClosed := true }
  | takeJob (s : Pool) (i : Nat) (q : EventRangeQuery) (rest : List EventRangeQuery) :
      s.workers[i]? = some Worker.recv → s.jobChan = q :: rest →
      Moves gateway s []
        { s with jobChan := rest, workers := s.workers.set i (Worker.start gateway q) }
  | takeDone (s : Pool) (i : Nat) :
      s.workers[i]? = some Worker.recv → s.jobChan = [] → s.jobClosed = true →
      Moves gateway s [] { s with workers := s.workers.set i Worker.done }
  | send (s : Pool) (i : Nat) (resultEvents : List BlockEvents) (w next : Worker)
      (eventResult : EventWorkerResult) :
      s.main = Main.running resultEvents → s.workers[i]? = some w →
      w.offer = some (eventResult, next) →
      Moves gateway s (w.job.map (fun q => (q, eventResult)))
        { s with workers := s.workers.set i next,
                 main := receiveResult resultEvents eventResult }
  | closeResults (s : Pool) :
      (∀ w ∈ s.workers, w = Worker.done) → s.resultsClosed = false →
      Moves gateway s [] { s with resultsClosed := true }
  | finish (s : Pool) (resultEvents : List BlockEvents) :
      s.main = Main.running resultEvents → s.resultsClosed = true →
      Moves gateway s [] { s with main := Main.returned resultEvents none }

/-- The slice `GetEvents` returns for a query. -/
def Gateway.events (gateway : Gateway) (q : EventRangeQuery) : List BlockEvents :=
  (gateway.GetEvents q.EventType q.StartHeight q.EndHeight).1

/-- `GetEvents` returns a nil error for a query. -/
def Gateway.succeeds (gateway : Gateway) (q : EventRangeQuery) : Prop :=
  (gateway.GetEvents q.EventType q.StartHeight q.EndHeight).2 = none

/-- What holds in every state of a call of `Get` on the plan `queries` with
`workerCount` workers when `GetEvents` succeeds on the whole plan.  `arrival`
lists the queries whose results `Get` has received, in arrival order. -/
structure PoolInv (gateway : Gateway) (queries : List EventRangeQuery) (workerCount : Nat)
    (arrival : List EventRangeQuery) (s : Pool) : Prop where
  workers_len : s.workers.length = workerCount
  workers_ok : ∀ w ∈ s.workers,
    w = Worker.recv ∨ w = Worker.done ∨ ∃ q, w = Worker.sendOk q (gateway.events q)
  merged_events : s.main.events = arrival.flatMap gateway.events
  merged_count : ∀ x, List.count x arrival + List.count x (s.workers.flatMap Worker.job)
    + List.count x s.jobChan + List.count x s.pending = List.count x queries
  merged_order : workerCount = 1 →
    arrival ++ s.workers.flatMap Worker.job ++ s.jobChan ++ s.pending = queries
  main_ok : ∀ events err, s.main = Main.returned events err →
    err = none ∧ s.resultsClosed = true
  closed_done : s.resultsClosed = true → ∀ w ∈ s.workers, w = Worker.done
  done_drained : Worker.done ∈ s.workers → s.jobClosed = true ∧ s.jobChan = []
  closed_pending : s.jobClosed = true → s.pending = []

/-! ## Planner: auxiliary facts -/

/-- One more unit of fuel does not change a result already reached. -/
theorem makeEventQueriesLoop_fuel_succ (events : List String) (endHeight blockCount : Nat) :
    ∀ (fuel startHeight : Nat) (queries result : List EventRangeQuery),
      makeEventQueriesLoop events endHeight blockCount fuel startHeight queries = some result →
      makeEventQueriesLoop events endHeight blockCount (fuel + 1) startHeight queries
        = some result := by
  intro fuel
  induction fuel with
  | zero => intro s q r h; simp [makeEventQueriesLoop] at h
  | succ n ih =>
    intro s q r h
    rw [makeEventQueriesLoop] at h
    rw [makeEventQueriesLoop]
    by_cases hc : s ≤ endHeight
    · simp only [hc, if_true] at h ⊢
      exact ih _ _ _ h
    · simp only [hc, if_false] at h ⊢
      exact h

theorem makeEventQueriesLoop_fuel_mono (events : List String) (endHeight blockCount : Nat)
    {fuel fuel' startHeight : Nat} {queries result : List EventRangeQuery} (hle : fuel ≤ fuel')
    (h : makeEventQueriesLoop events endHeight blockCount fuel startHeight queries = some result) :
    makeEventQueriesLoop events endHeight blockCount fuel' startHeight queries = some result := by
  induction hle with
  | refl => exact h
  | step _ ih => exact makeEventQueriesLoop_fuel_succ _ _ _ _ _ _ _ ih

/-- The planner is deterministic: two runs that both finish agree. -/
theorem makeEventQueries_fuel_unique {fuel fuel' : Nat} {events : List String}
    {startHeight endHeight blockCount : Nat} {r r' : List EventRangeQuery}
    (h : makeEventQueries fuel events startHeight endHeight blockCount = some r)
    (h' : makeEventQueries fuel' events startHeight endHeight blockCount = some r') :
    r = r' := by
  unfold makeEventQueries at h h'
  rcases Nat.le_total fuel fuel' with hle | hle
  · have := makeEventQueriesLoop_fuel_mono events endHeight blockCount hle h
    rw [this] at h'
    exact Option.some.inj h'
  · have := makeEventQueriesLoop_fuel_mono events endHeight blockCount hle h'
    rw [this] at h
    exact (Option.some.inj h).symm

theorem planSpec_eq (events : List String) (start stop maxSpan : Nat) :
    planSpec events start stop maxSpan =
      (List.range (subRangeCount start stop maxSpan)).flatMap
        (chunkQueries events start stop maxSpan) := rfl

theorem subRange_shift (start stop maxSpan i : Nat) :
    subRange start stop maxSpan (i + 1) = subRange (start + maxSpan) stop maxSpan i := by
  unfold subRange
  have : start + (i + 1) * maxSpan = start + maxSpan + i * maxSpan := by ring
  have h2 : start + (i + 1 + 1) * maxSpan = start + maxSpan + (i + 1) * maxSpan := by ring
  rw [this, h2]

theorem chunkQueries_shift (events : List String) (start stop maxSpan i : Nat) :
    chunkQueries events start stop maxSpan (i + 1)
      = chunkQueries events (start + maxSpan) stop maxSpan i := by
  unfold chunkQueries
  rw [subRange_shift]

theorem flatMap_chunks_succ (events : List String) (start stop maxSpan n : Nat) :
    (List.range (n + 1)).flatMap (chunkQueries events start stop maxSpan)
      = chunkQueries events start stop maxSpan 0 ++
        (List.range n).flatMap (chunkQueries events (start + maxSpan) stop maxSpan) := by
  rw [List.range_succ_eq_map, List.flatMap_cons, List.flatMap_map]
  congr 1
  congr 1
  funext i
  exact chunkQueries_shift events start stop maxSpan i

theorem chunkQueries_zero (events : List String) (start stop maxSpan : Nat) :
    chunkQueries events start stop maxSpan 0
      = events.map (fun event => EventRangeQuery.mk event start
          (min (start + maxSpan - 1) stop)) := by
  simp [chunkQueries, subRange]

/-- One iteration of the loop body when `startHeight + blockCount` does not
wrap around. -/
theorem makeEventQueriesLoop_step (events : List String) (endHeight blockCount : Nat)
    (hm : 1 ≤ blockCount) (fuel startHeight : Nat) (queries : List EventRangeQuery)
    (hs : startHeight ≤ endHeight) (hov : startHeight + blockCount < u64Mod) :
    makeEventQueriesLoop events endHeight blockCount (fuel + 1) startHeight queries
      = makeEventQueriesLoop events endHeight blockCount fuel (startHeight + blockCount)
          (queries ++ chunkQueries events startHeight endHeight blockCount 0) := by
  have h1 : u64add startHeight blockCount = startHeight + blockCount := by
    unfold u64add; unfold u64Mod at *; omega
  have h2 : u64sub (startHeight + blockCount) 1 = startHeight + blockCount - 1 := by
    unfold u64sub; unfold u64Mod at *; omega
  have h3 : u64add (startHeight + blockCount - 1) 1 = startHeight + blockCount := by
    unfold u64add; unfold u64Mod at *; omega
  have h4 : (if startHeight + blockCount - 1 < endHeight then startHeight + blockCount - 1
      else endHeight) = min (startHeight + blockCount - 1) endHeight := by
    split <;> omega
  rw [makeEventQueriesLoop]
  simp only [hs, if_true, h1, h2, h3, h4, chunkQueries_zero]

/-- When the start height following the last sub-range does not wrap around,
the loop started at `startHeight` with `n + 1` sub-ranges left appends exactly
those sub-ranges' queries. -/
theorem makeEventQueriesLoop_spec (events : List String) (endHeight blockCount : Nat)
    (hm : 1 ≤ blockCount) :
    ∀ (n startHeight : Nat) (queries : List EventRangeQuery),
      startHeight ≤ endHeight → (endHeight - startHeight) / blockCount = n →
      startHeight + (n + 1) * blockCount < u64Mod →
      makeEventQueriesLoop events endHeight blockCount (n + 2) startHeight queries
        = some (queries ++ (List.range (n + 1)).flatMap
            (chunkQueries events startHeight endHeight blockCount)) := by
  intro n
  induction n with
  | zero =>
    intro s q hs hn hov
    have hlt : endHeight - s < blockCount := (Nat.div_eq_zero_iff (by omega)).mp hn
    rw [makeEventQueriesLoop_step events endHeight blockCount hm _ _ _ hs (by omega)]
    rw [makeEventQueriesLoop]
    have hnot : ¬ (s + blockCount ≤ endHeight) := by omega
    simp only [hnot, if_false]
    have hr : List.range 1 = [0] := rfl
    simp [hr]
  | succ n ih =>
    intro s q hs hn hov
    have hge : blockCount ≤ endHeight - s := by
      by_contra hc
      have : (endHeight - s) / blockCount = 0 := Nat.div_eq_of_lt (by omega)
      omega
    have hn' : (endHeight - (s + blockCount)) / blockCount = n := by
      have : endHeight - s = (endHeight - (s + blockCount)) + blockCount := by omega
      rw [this, Nat.add_div_right _ (by omega)] at hn
      omega
    have hmul : (n + 1 + 1) * blockCount = (n + 1) * blockCount + blockCount := by ring
    rw [makeEventQueriesLoop_step events endHeight blockCount hm _ _ _ hs (by omega)]
    rw [ih (s + blockCount) _ (by omega) hn' (by omega), flatMap_chunks_succ events s,
      List.append_assoc]

/-! ## Planner: the sub-ranges of the specification cover the interval -/

theorem rangesOf_append (t : String) (a b : List EventRangeQuery) :
    rangesOf t (a ++ b) = rangesOf t a ++ rangesOf t b := by
  simp [rangesOf]

theorem rangesOf_map_of_not_mem (t : String) (a b : Nat) :
    ∀ events : List String, t ∉ events →
      rangesOf t (events.map (fun event => EventRangeQuery.mk event a b)) = [] := by
  intro events
  induction events with
  | nil => intro _; rfl
  | cons e es ih =>
    intro h
    have h1 : e ≠ t := fun he => h (by simp [he])
    have h2 : t ∉ es := fun he => h (by simp [he])
    have := ih h2
    simp only [rangesOf] at this ⊢
    simp [List.filter_cons, h1, this]

theorem rangesOf_map_of_mem (t : String) (a b : Nat) :
    ∀ events : List String, t ∈ events → events.Nodup →
      rangesOf t (events.map (fun event => EventRangeQuery.mk event a b)) = [(a, b)] := by
  intro events
  induction events with
  | nil => intro h; simp at h
  | cons e es ih =>
    intro h hnd
    rw [List.nodup_cons] at hnd
    by_cases he : e = t
    · subst he
      have := rangesOf_map_of_not_mem e a b es hnd.1
      simp only [rangesOf] at this ⊢
      simp [List.filter_cons, this]
    · have hmem : t ∈ es := by
        rcases List.mem_cons.mp h with h | h
        · exact absurd h.symm he
        · exact h
      have := ih hmem hnd.2
      simp only [rangesOf] at this ⊢
      simp [List.filter_cons, he, this]

theorem rangesOf_flatMap_chunks (t : String) (events : List String) (start stop maxSpan : Nat)
    (ht : t ∈ events) (hnd : events.Nodup) :
    ∀ l : List Nat, rangesOf t (l.flatMap (chunkQueries events start stop maxSpan))
      = l.map (subRange start stop maxSpan) := by
  intro l
  induction l with
  | nil => rfl
  | cons i l ih =>
    have h := rangesOf_map_of_mem t (subRange start stop maxSpan i).1
      (subRange start stop maxSpan i).2 events ht hnd
    rw [List.flatMap_cons, rangesOf_append, ih, List.map_cons]
    unfold chunkQueries
    rw [h]
    rfl

theorem rangesOf_planSpec (t : String) (events : List String) (start stop maxSpan : Nat)
    (ht : t ∈ events) (hnd : events.Nodup) :
    rangesOf t (planSpec events start stop maxSpan)
      = (List.range (subRangeCount start stop maxSpan)).map (subRange start stop maxSpan) := by
  rw [planSpec_eq]
  exact rangesOf_flatMap_chunks t events start stop maxSpan ht hnd _

/-- Index arithmetic: a sub-range index below the count starts within range. -/
theorem subRange_index_le {start stop maxSpan i : Nat} (hse : start ≤ stop)
    (hi : i ≤ (stop - start) / maxSpan) : start + i * maxSpan ≤ stop := by
  have h1 : i * maxSpan ≤ (stop - start) / maxSpan * maxSpan := Nat.mul_le_mul_right _ hi
  have h2 : (stop - start) / maxSpan * maxSpan ≤ stop - start := Nat.div_mul_le_self _ _
  omega

theorem subRange_last_gt {start stop maxSpan : Nat} (hse : start ≤ stop) (hm : 1 ≤ maxSpan) :
    stop < start + ((stop - start) / maxSpan + 1) * maxSpan := by
  have h1 := Nat.div_add_mod (stop - start) maxSpan
  have h2 := Nat.mod_lt (stop - start) (show 0 < maxSpan by omega)
  have h3 : ((stop - start) / maxSpan + 1) * maxSpan
      = maxSpan * ((stop - start) / maxSpan) + maxSpan := by ring
  omega

/-- The sub-ranges of the specification cover `[start, stop]`. -/
theorem coverage_subRanges (start stop maxSpan : Nat) (hse : start ≤ stop) (hm : 1 ≤ maxSpan) :
    Coverage start stop maxSpan
      ((List.range (subRangeCount start stop maxSpan)).map (subRange start stop maxSpan)) := by
  unfold subRangeCount
  refine ⟨?_, ?_, ?_, ?_, ?_, ?_⟩
  · rw [List.chain'_map, List.chain'_range_succ]
    intro i hi
    have h1 := @subRange_index_le start stop maxSpan (i + 1) hse (by omega)
    have h2 : 0 < (i + 1) * maxSpan := Nat.mul_pos (by omega) (by omega)
    simp only [subRange, Nat.succ_eq_add_one]
    omega
  · rw [List.pairwise_map]
    refine (List.pairwise_lt_range _).imp ?_
    intro i j hij
    have h1 : (i + 1) * maxSpan ≤ j * maxSpan := Nat.mul_le_mul_right _ hij
    have h2 : 0 < (i + 1) * maxSpan := Nat.mul_pos (by omega) (by omega)
    simp only [subRange]
    omega
  · intro r hr
    rcases List.mem_map.mp hr with ⟨i, hi, rfl⟩
    have h3 : (i + 1) * maxSpan = i * maxSpan + maxSpan := by ring
    have h4 := @subRange_index_le start stop maxSpan i hse
      (by have := List.mem_range.mp hi; omega)
    simp only [subRange]
    omega
  · simp [List.head?_range, subRange]
  · have := subRange_last_gt hse hm
    simp only [List.getLast?_map, List.getLast?_range]
    simp [subRange]
    omega
  · intro h
    constructor
    · rintro ⟨h1, h2⟩
      refine ⟨subRange start stop maxSpan ((h - start) / maxSpan), ?_, ?_⟩
      · refine List.mem_map.mpr ⟨(h - start) / maxSpan, ?_, rfl⟩
        rw [List.mem_range]
        have : (h - start) / maxSpan ≤ (stop - start) / maxSpan :=
          Nat.div_le_div_right (by omega)
        omega
      · have h3 := Nat.div_mul_le_self (h - start) maxSpan
        have h4 := @subRange_last_gt start h maxSpan h1 hm
        simp only [subRange]
        omega
    · rintro ⟨r, hr, h1, h2⟩
      rcases List.mem_map.mp hr with ⟨i, _, rfl⟩
      simp only [subRange] at h1 h2
      omega


/-! ## Planner: the loop against the plan of the specification -/

/-- When the start height following the last sub-range does not wrap around,
the planner finishes and returns the plan of the specification, for every
sufficient amount of fuel. -/
theorem makeEventQueries_eq_planSpec (events : List String) (start stop maxSpan : Nat)
    (hse : start ≤ stop) (hm : 1 ≤ maxSpan)
    (hov : start + subRangeCount start stop maxSpan * maxSpan < u64Mod)
    (fuel : Nat) (hfuel : subRangeCount start stop maxSpan + 1 ≤ fuel) :
    makeEventQueries fuel events start stop maxSpan
      = some (planSpec events start stop maxSpan) := by
  have h := makeEventQueriesLoop_spec events stop maxSpan hm
    ((stop - start) / maxSpan) start [] hse rfl hov
  unfold makeEventQueries
  rw [planSpec_eq]
  unfold subRangeCount at hfuel ⊢
  have h' := makeEventQueriesLoop_fuel_mono events stop maxSpan (show
    (stop - start) / maxSpan + 2 ≤ fuel by omega) h
  simpa using h'

/-- The no-wrap condition follows from `stop + maxSpan < 2^64`. -/
theorem no_wrap_of_end_add_span (start stop maxSpan : Nat) (hse : start ≤ stop)
    (hov : stop + maxSpan < u64Mod) :
    start + subRangeCount start stop maxSpan * maxSpan < u64Mod := by
  unfold subRangeCount
  have h1 := Nat.div_mul_le_self (stop - start) maxSpan
  have h2 : ((stop - start) / maxSpan + 1) * maxSpan
      = (stop - start) / maxSpan * maxSpan + maxSpan := by ring
  omega

/-- With `endHeight = 2^64 - 1` the loop condition `startHeight <= endHeight`
holds for every `uint64`, so the loop never exits. -/
theorem makeEventQueriesLoop_max_end (events : List String) (blockCount : Nat) :
    ∀ (fuel startHeight : Nat) (queries : List EventRangeQuery), startHeight < u64Mod →
      makeEventQueriesLoop events (u64Mod - 1) blockCount fuel startHeight queries = none := by
  intro fuel
  induction fuel with
  | zero => intro s q _; rfl
  | succ n ih =>
    intro s q hs
    rw [makeEventQueriesLoop]
    have hle : s ≤ u64Mod - 1 := by omega
    simp only [hle, if_true]
    apply ih
    unfold u64add
    exact Nat.mod_lt _ (by unfold u64Mod; omega)

/-- With `blockCount = 0` the start height never advances, so the loop
never exits. -/
theorem makeEventQueriesLoop_zero_span (events : List String) (endHeight : Nat)
    (he : endHeight < u64Mod) :
    ∀ (fuel startHeight : Nat) (queries : List EventRangeQuery), startHeight ≤ endHeight →
      makeEventQueriesLoop events endHeight 0 fuel startHeight queries = none := by
  intro fuel
  induction fuel with
  | zero => intro s q _; rfl
  | succ n ih =>
    intro s q hs
    have hstep : u64add (u64sub (u64add s 0) 1) 1 = s := by
      unfold u64add u64sub
      unfold u64Mod at *
      omega
    rw [makeEventQueriesLoop]
    simp only [hs, if_true, hstep]
    exact ih _ _ hs

theorem ceil_div_eq_subRangeCount (start stop maxSpan : Nat) (hse : start ≤ stop)
    (hm : 1 ≤ maxSpan) :
    ⌈((stop - start + 1 : ℕ) : ℚ) / (maxSpan : ℚ)⌉₊ = subRangeCount start stop maxSpan := by
  unfold subRangeCount
  have hmq : (0 : ℚ) < (maxSpan : ℚ) := by exact_mod_cast hm
  have h1 := Nat.div_mul_le_self (stop - start) maxSpan
  have h2 := subRange_last_gt hse hm
  rw [Nat.ceil_eq_iff (Nat.succ_ne_zero _)]
  constructor
  · rw [lt_div_iff₀ hmq]
    have : (stop - start) / maxSpan * maxSpan < stop - start + 1 := by omega
    have h3 : (((stop - start) / maxSpan * maxSpan : ℕ) : ℚ) < ((stop - start + 1 : ℕ) : ℚ) := by
      exact_mod_cast this
    simpa using h3
  · rw [div_le_iff₀ hmq]
    have : stop - start + 1 ≤ ((stop - start) / maxSpan + 1) * maxSpan := by omega
    have h3 : ((stop - start + 1 : ℕ) : ℚ) ≤ ((((stop - start) / maxSpan + 1) * maxSpan : ℕ) : ℚ) := by
      exact_mod_cast this
    simpa using h3

theorem length_planSpec (events : List String) (start stop maxSpan : Nat) :
    (planSpec events start stop maxSpan).length
      = subRangeCount start stop maxSpan * events.length := by
  rw [planSpec_eq]
  generalize subRangeCount start stop maxSpan = n
  induction n with
  | zero => simp
  | succ n ih =>
    rw [List.range_succ, List.flatMap_append, List.length_append, ih]
    simp [chunkQueries]
    ring


/-! ## Worker and aggregator: auxiliary facts -/

theorem collectResults_append_ok (pre : List EventWorkerResult)
    (hpre : ∀ x ∈ pre, x.Error = none) :
    ∀ (rest : List EventWorkerResult) (resultEvents : List BlockEvents),
      collectResults (pre ++ rest) resultEvents
        = collectResults rest (resultEvents ++ pre.flatMap (fun x => x.Events)) := by
  induction pre with
  | nil => intro rest acc; simp
  | cons x xs ih =>
    intro rest acc
    have hx : x.Error = none := hpre x (by simp)
    have hxs : ∀ y ∈ xs, y.Error = none := fun y hy => hpre y (by simp [hy])
    rw [List.cons_append, collectResults]
    simp only [hx]
    rw [ih hxs, List.flatMap_cons, List.append_assoc]

theorem workerEmits_ok (gateway : Gateway) (q : EventRangeQuery)
    (h : (gateway.GetEvents q.EventType q.StartHeight q.EndHeight).2 = none) :
    workerEmits gateway q
      = [⟨(gateway.GetEvents q.EventType q.StartHeight q.EndHeight).1, none⟩] := by
  unfold workerEmits
  rcases hg : gateway.GetEvents q.EventType q.StartHeight q.EndHeight with ⟨be, e⟩
  rw [hg] at h
  simp only at h
  subst h
  rfl

theorem workerEmits_error (gateway : Gateway) (q : EventRangeQuery) (err : GoError)
    (h : (gateway.GetEvents q.EventType q.StartHeight q.EndHeight).2 = some err) :
    workerEmits gateway q
      = [⟨[], some err⟩,
          ⟨(gateway.GetEvents q.EventType q.StartHeight q.EndHeight).1, none⟩] := by
  unfold workerEmits
  rcases hg : gateway.GetEvents q.EventType q.StartHeight q.EndHeight with ⟨be, e⟩
  rw [hg] at h
  simp only at h
  subst h
  rfl

theorem eventWorker_all_ok (gateway : Gateway) (jobs : List EventRangeQuery)
    (h : ∀ q ∈ jobs, (gateway.GetEvents q.EventType q.StartHeight q.EndHeight).2 = none) :
    eventWorker gateway jobs
      = jobs.map (fun q =>
          ⟨(gateway.GetEvents q.EventType q.StartHeight q.EndHeight).1, none⟩) := by
  unfold eventWorker
  induction jobs with
  | nil => rfl
  | cons q qs ih =>
    rw [List.flatMap_cons, List.map_cons, workerEmits_ok gateway q (h q (by simp)),
      ih (fun x hx => h x (by simp [hx]))]
    rfl

/-- The first result carrying an error decides what the loop returns. -/
theorem collectResults_first_error (pre post : List EventWorkerResult) (r : EventWorkerResult)
    (err : GoError) (resultEvents : List BlockEvents)
    (hpre : ∀ x ∈ pre, x.Error = none) (hr : r.Error = some err) :
    collectResults (pre ++ r :: post) resultEvents = ([], some err) := by
  rw [collectResults_append_ok pre hpre, collectResults]
  simp only [hr]

/-- With a single worker and a plan whose first failing query is `q`, the
result stream makes `Get` return the error of `q` and no events. -/
theorem collectResults_eventWorker_failure (gateway : Gateway)
    (pre post : List EventRangeQuery) (q : EventRangeQuery) (err : GoError)
    (hpre : ∀ x ∈ pre, (gateway.GetEvents x.EventType x.StartHeight x.EndHeight).2 = none)
    (hq : (gateway.GetEvents q.EventType q.StartHeight q.EndHeight).2 = some err) :
    collectResults (eventWorker gateway (pre ++ q :: post)) [] = ([], some err) := by
  have hsplit : eventWorker gateway (pre ++ q :: post)
      = eventWorker gateway pre ++ (⟨[], some err⟩ ::
          (⟨(gateway.GetEvents q.EventType q.StartHeight q.EndHeight).1, none⟩ ::
            eventWorker gateway post)) := by
    unfold eventWorker
    rw [List.flatMap_append, List.flatMap_cons, workerEmits_error gateway q err hq]
    rfl
  rw [hsplit]
  apply collectResults_first_error
  · intro x hx
    rw [eventWorker_all_ok gateway pre hpre] at hx
    rcases List.mem_map.mp hx with ⟨y, _, rfl⟩
    rfl
  · rfl

/-- The loop of `Get` is the loop body `receiveResult` applied result by
result. -/
theorem collectResults_cons (eventResult : EventWorkerResult) (rest : List EventWorkerResult)
    (resultEvents : List BlockEvents) :
    collectResults (eventResult :: rest) resultEvents
      = match receiveResult resultEvents eventResult with
        | Main.running resultEvents' => collectResults rest resultEvents'
        | Main.returned events err => (events, err) := by
  rw [collectResults]
  unfold receiveResult
  cases eventResult.Error <;> rfl

/-! ## Worker pool: general facts -/

theorem sum_map_set (f : Worker → Nat) (w' : Worker) :
    ∀ (ws : List Worker) (i : Nat) (w : Worker), ws[i]? = some w →
      ((ws.set i w').map f).sum + f w = (ws.map f).sum + f w' := by
  intro ws
  induction ws with
  | nil => intro i w h; simp at h
  | cons a ws ih =>
    intro i w h
    cases i with
    | zero =>
      simp at h
      subst h
      simp
      omega
    | succ i =>
      simp at h
      have := ih i w h
      simp only [List.set_cons_succ, List.map_cons, List.sum_cons]
      omega

theorem count_flatMap_job (x : EventRangeQuery) (ws : List Worker) :
    List.count x (ws.flatMap Worker.job)
      = (ws.map (fun w => List.count x w.job)).sum := by
  induction ws with
  | nil => rfl
  | cons a ws ih => simp [List.flatMap_cons, List.count_append, ih]

theorem count_job_set (x : EventRangeQuery) (ws : List Worker) (i : Nat) (w w' : Worker)
    (h : ws[i]? = some w) :
    List.count x ((ws.set i w').flatMap Worker.job) + List.count x w.job
      = List.count x (ws.flatMap Worker.job) + List.count x w'.job := by
  rw [count_flatMap_job, count_flatMap_job]
  exact sum_map_set (fun w => List.count x w.job) w' ws i w h

theorem run_append (gateway : Gateway) (as bs : List Action) (s : Pool) :
    run gateway (as ++ bs) s = (run gateway as s).bind (run gateway bs) := by
  induction as generalizing s with
  | nil => simp [run]
  | cons a as ih =>
    simp only [List.cons_append, run]
    cases step gateway a s with
    | none => rfl
    | some s' => simp [ih]

/-- Induction over the states reachable from `s0`. -/
theorem run_induction (gateway : Gateway) (P : Pool → Prop) (s0 : Pool) (h0 : P s0)
    (hstep : ∀ a s s', P s → step gateway a s = some s' → P s') :
    ∀ (acts : List Action) (s : Pool), run gateway acts s0 = some s → P s := by
  intro acts
  induction acts generalizing s0 with
  | nil => intro s h; simp [run] at h; subst h; exact h0
  | cons a as ih =>
    intro s h
    simp only [run] at h
    cases hs : step gateway a s0 with
    | none => rw [hs] at h; simp at h
    | some s1 =>
      rw [hs] at h
      exact ih s1 (hstep a s0 s1 h0 hs) s h


/-! ## Worker pool: steps, termination and progress -/

/-- Every step of `step` is one of the moves. -/
theorem moves_of_step (gateway : Gateway) (a : Action) (s s' : Pool)
    (h : step gateway a s = some s') : Moves gateway s (a.delivery s) s' := by
  cases a with
  | feed =>
    unfold step at h
    simp only at h
    split at h
    · exact Option.noConfusion h
    · rename_i query rest hp
      split at h
      · rename_i hl
        cases h
        exact Moves.feed s query rest hp hl
      · exact Option.noConfusion h
  | closeJobs =>
    unfold step at h
    simp only at h
    split at h
    · rename_i hc
      cases h
      exact Moves.closeJobs s hc.1 hc.2
    · exact Option.noConfusion h
  | take i =>
    unfold step at h
    simp only at h
    split at h
    · rename_i hw
      split at h
      · rename_i q rest hj
        cases h
        exact Moves.takeJob s i q rest hw hj
      · rename_i hj
        split at h
        · rename_i hc
          cases h
          exact Moves.takeDone s i hw hj hc
        · exact Option.noConfusion h
    · exact Option.noConfusion h
  | send i =>
    unfold step at h
    simp only at h
    split at h
    · exact Option.noConfusion h
    · rename_i resultEvents hm
      split at h
      · rename_i eventResult next ho
        cases h
        cases hw : s.workers[i]? with
        | none => rw [hw] at ho; simp at ho
        | some w =>
          rw [hw] at ho
          have hd : (Action.send i).delivery s = w.job.map (fun q => (q, eventResult)) := by
            simp only [Action.delivery, hw]
            simp only [Option.bind] at ho
            rw [ho]
          rw [hd]
          exact Moves.send s i resultEvents w next eventResult hm hw ho
      · exact Option.noConfusion h
  | closeResults =>
    unfold step at h
    simp only at h
    split at h
    · rename_i hc
      cases h
      exact Moves.closeResults s hc.1 hc.2
    · exact Option.noConfusion h
  | finish =>
    unfold step at h
    simp only at h
    split at h
    · rename_i resultEvents hm
      split at h
      · rename_i hc
        cases h
        exact Moves.finish s resultEvents hm hc
      · exact Option.noConfusion h
    · exact Option.noConfusion h


theorem weight_start_le (gateway : Gateway) (q : EventRangeQuery) :
    (Worker.start gateway q).weight ≤ 3 := by
  unfold Worker.start
  split <;> simp [Worker.weight]

/-- Every move uses up some of the measure. -/
theorem moves_measure (gateway : Gateway) (s s' : Pool)
    (d : List (EventRangeQuery × EventWorkerResult)) (h : Moves gateway s d s') :
    s'.measure < s.measure := by
  cases h with
  | feed query rest hp hl =>
    simp only [Pool.measure, hp, List.length_append, List.length_cons, List.length_nil]
    omega
  | closeJobs hp hc =>
    simp only [Pool.measure, hc]
    simp
  | takeJob i q rest hw hj =>
    have h1 := sum_map_set Worker.weight (Worker.start gateway q) s.workers i _ hw
    have h2 := weight_start_le gateway q
    have hr : Worker.recv.weight = 1 := rfl
    rw [hr] at h1
    simp only [Pool.measure, hj, List.length_cons]
    omega
  | takeDone i hw hj hc =>
    have h1 := sum_map_set Worker.weight Worker.done s.workers i _ hw
    simp only [Worker.weight] at h1
    simp only [Pool.measure]
    omega
  | send i resultEvents w next eventResult hm hw ho =>
    have h1 := sum_map_set Worker.weight next s.workers i _ hw
    have h2 : next.weight < w.weight := by
      cases w <;> simp [Worker.offer] at ho
      · rw [← ho.2]; simp [Worker.weight]
      · rw [← ho.2]; simp [Worker.weight]
    have h3 : (if (receiveResult resultEvents eventResult).isReturned = true then 0 else 1) ≤ 1 := by
      split <;> omega
    simp only [Pool.measure, hm, Main.isReturned] at h3 ⊢
    simp only [Bool.false_eq_true, if_false]
    omega
  | closeResults hd hc =>
    simp only [Pool.measure, hc]
    simp
  | finish resultEvents hm hc =>
    simp only [Pool.measure, hm, Main.isReturned]
    simp

theorem step_measure (gateway : Gateway) (a : Action) (s s' : Pool)
    (h : step gateway a s = some s') : s'.measure < s.measure :=
  moves_measure gateway s s' _ (moves_of_step gateway a s s' h)

/-- A schedule cannot be longer than the measure of the state it starts in. -/
theorem run_length_le (gateway : Gateway) :
    ∀ (acts : List Action) (s s' : Pool), run gateway acts s = some s' →
      acts.length + s'.measure ≤ s.measure := by
  intro acts
  induction acts with
  | nil => intro s s' h; simp [run] at h; subst h; simp
  | cons a as ih =>
    intro s s' h
    simp only [run] at h
    cases hs : step gateway a s with
    | none => rw [hs] at h; simp at h
    | some s1 =>
      rw [hs] at h
      have h1 := ih s1 s' h
      have h2 := step_measure gateway a s s1 hs
      simp only [List.length_cons]
      omega

theorem worker_cases (w : Worker) :
    w.offer.isSome = true ∨ w = Worker.recv ∨ w = Worker.done := by
  cases w <;> simp [Worker.offer]

/-- As long as `Get` has not returned, some goroutine can move. -/
theorem progress (gateway : Gateway) (s : Pool) (resultEvents : List BlockEvents)
    (hm : s.main = Main.running resultEvents) :
    ∃ a s', step gateway a s = some s' := by
  by_cases h1 : ∃ w ∈ s.workers, w.offer.isSome = true
  · rcases h1 with ⟨w, hw, ho⟩
    rcases List.getElem?_of_mem hw with ⟨i, hi⟩
    rcases Option.isSome_iff_exists.mp ho with ⟨⟨r, next⟩, hr⟩
    refine ⟨Action.send i, ?_⟩
    simp only [step, hm, hi, Option.bind, hr]
    exact ⟨_, rfl⟩
  · by_cases h2 : Worker.recv ∈ s.workers
    · rcases List.getElem?_of_mem h2 with ⟨i, hi⟩
      have hlen : 0 < s.workers.length := List.length_pos_of_mem h2
      cases hj : s.jobChan with
      | cons q rest =>
        refine ⟨Action.take i, ?_⟩
        simp only [step, hi, hj]
        exact ⟨_, rfl⟩
      | nil =>
        by_cases hc : s.jobClosed = true
        · refine ⟨Action.take i, ?_⟩
          simp only [step, hi, hj, hc, if_true]
          exact ⟨_, rfl⟩
        · cases hp : s.pending with
          | nil =>
            refine ⟨Action.closeJobs, ?_⟩
            have : s.jobClosed = false := by simpa using hc
            simp only [step, hp, this, and_self, if_true]
            exact ⟨_, rfl⟩
          | cons q rest =>
            refine ⟨Action.feed, ?_⟩
            simp only [step, hp, hj, List.length_nil, hlen, if_true]
            exact ⟨_, rfl⟩
    · have hall : ∀ w ∈ s.workers, w = Worker.done := by
        intro w hw
        rcases worker_cases w with h | h | h
        · exact absurd ⟨w, hw, h⟩ h1
        · exact absurd (h ▸ hw) h2
        · exact h
      by_cases hc : s.resultsClosed = true
      · refine ⟨Action.finish, ?_⟩
        simp only [step, hm, hc, if_true]
        exact ⟨_, rfl⟩
      · refine ⟨Action.closeResults, ?_⟩
        have : s.resultsClosed = false := by simpa using hc
        simp only [step, this, and_true]
        rw [if_pos hall]
        exact ⟨_, rfl⟩

/-- From every state some schedule makes `Get` return. -/
theorem reaches_return (gateway : Gateway) :
    ∀ (n : Nat) (s : Pool), s.measure ≤ n →
      ∃ acts s', run gateway acts s = some s' ∧ s'.main.isReturned = true := by
  intro n
  induction n with
  | zero =>
    intro s hn
    cases hm : s.main with
    | running acc =>
      simp only [Pool.measure, hm, Main.isReturned] at hn
      simp at hn
    | returned evs err =>
      exact ⟨[], s, rfl, by rw [hm]; rfl⟩
  | succ n ih =>
    intro s hn
    cases hm : s.main with
    | running acc =>
      rcases progress gateway s acc hm with ⟨a, s1, h1⟩
      have hlt := step_measure gateway a s s1 h1
      rcases ih s1 (by omega) with ⟨acts, s', h2, h3⟩
      refine ⟨a :: acts, s', ?_, h3⟩
      simp only [run, h1, Option.bind]
      exact h2
    | returned evs err =>
      exact ⟨[], s, rfl, by rw [hm]; rfl⟩


/-! ## Worker pool: invariant of an all-successful call -/

theorem start_of_succeeds (gateway : Gateway) (q : EventRangeQuery)
    (h : gateway.succeeds q) : Worker.start gateway q = Worker.sendOk q (gateway.events q) := by
  unfold Gateway.succeeds at h
  unfold Worker.start Gateway.events
  rcases hg : gateway.GetEvents q.EventType q.StartHeight q.EndHeight with ⟨be, e⟩
  rw [hg] at h
  simp only at h
  subst h
  rfl

theorem single_worker (ws : List Worker) (i : Nat) (w : Worker) (hl : ws.length = 1)
    (hw : ws[i]? = some w) : ws = [w] ∧ i = 0 := by
  match ws, hl with
  | [a], _ =>
    cases i with
    | zero => simp at hw; subst hw; exact ⟨rfl, rfl⟩
    | succ i => simp at hw

theorem flatMap_job_of_done (ws : List Worker) (h : ∀ w ∈ ws, w = Worker.done) :
    ws.flatMap Worker.job = [] := by
  induction ws with
  | nil => rfl
  | cons a ws ih =>
    have ha : a = Worker.done := h a (by simp)
    have := ih (fun w hw => h w (by simp [hw]))
    rw [List.flatMap_cons, this, ha]
    rfl

theorem flatMap_job_replicate (n : Nat) :
    (List.replicate n Worker.recv).flatMap Worker.job = [] := by
  induction n with
  | zero => rfl
  | succ n ih => rw [List.replicate_succ, List.flatMap_cons, ih]; rfl

/-- The invariant holds, with nothing arrived, when `Get` has started its
goroutines. -/
theorem poolInv_init (gateway : Gateway) (queries : List EventRangeQuery) (workerCount : Nat) :
    PoolInv gateway queries workerCount [] (Pool.init queries workerCount) where
  workers_len := by simp [Pool.init]
  workers_ok := by
    intro w hw
    simp only [Pool.init] at hw
    exact Or.inl (List.eq_of_mem_replicate hw)
  merged_events := rfl
  merged_count := by
    intro x
    simp [Pool.init, flatMap_job_replicate]
  merged_order := by
    intro _
    simp [Pool.init, flatMap_job_replicate]
  main_ok := by
    intro events err h
    simp [Pool.init] at h
  closed_done := by
    intro h
    simp [Pool.init] at h
  done_drained := by
    intro h
    simp only [Pool.init] at h
    have := List.eq_of_mem_replicate h
    cases this
  closed_pending := by
    intro h
    simp [Pool.init] at h

/-! ## Worker pool: the invariant along a schedule -/

/-- Every move keeps the invariant, provided `GetEvents` succeeds on the
whole plan: the queries the move hands to `Get` are appended to the arrival
order, each with the gateway's answer and a nil error. -/
theorem poolInv_moves (gateway : Gateway) (queries : List EventRangeQuery) (workerCount : Nat)
    (hok : ∀ q ∈ queries, gateway.succeeds q) (s s' : Pool) (arr : List EventRangeQuery)
    (d : List (EventRangeQuery × EventWorkerResult))
    (inv : PoolInv gateway queries workerCount arr s) (h : Moves gateway s d s') :
    PoolInv gateway queries workerCount (arr ++ d.map Prod.fst) s' ∧
      ∀ p ∈ d, p.2 = ⟨gateway.events p.1, none⟩ := by
  have hev := inv.merged_events
  have hcnt := inv.merged_count
  have hord := inv.merged_order
  cases h with
  | feed query rest hp hl =>
    refine ⟨?_, by simp⟩
    simp only [List.map_nil, List.append_nil]
    refine ⟨inv.workers_len, inv.workers_ok, hev, ?_, ?_, inv.main_ok,
      inv.closed_done, ?_, ?_⟩
    · intro x
      have := hcnt x
      rw [hp] at this
      simp only [List.count_append, List.count_cons, List.count_nil] at this ⊢
      omega
    · intro h1
      have := hord h1
      rw [hp] at this
      simpa [List.append_assoc] using this
    · intro hd
      have := inv.closed_pending (inv.done_drained hd).1
      rw [hp] at this
      cases this
    · intro hc
      have := inv.closed_pending hc
      rw [hp] at this
      cases this
  | closeJobs hp hc =>
    refine ⟨?_, by simp⟩
    simp only [List.map_nil, List.append_nil]
    refine ⟨inv.workers_len, inv.workers_ok, hev, hcnt, hord, inv.main_ok,
      inv.closed_done, ?_, ?_⟩
    · intro hd
      have := (inv.done_drained hd).1
      rw [hc] at this
      cases this
    · intro _
      exact hp
  | takeJob i q rest hw hj =>
    have hq : q ∈ queries := by
      have := hcnt q
      rw [hj] at this
      simp only [List.count_cons_self] at this
      exact List.count_pos_iff.mp (by omega)
    have hst := start_of_succeeds gateway q (hok q hq)
    have hmem : Worker.recv ∈ s.workers := List.getElem?_mem hw
    refine ⟨?_, by simp⟩
    simp only [List.map_nil, List.append_nil]
    refine ⟨?_, ?_, hev, ?_, ?_, inv.main_ok, ?_, ?_, inv.closed_pending⟩
    · simp only [List.length_set]
      exact inv.workers_len
    · intro w hwm
      rcases List.mem_or_eq_of_mem_set hwm with h1 | h1
      · exact inv.workers_ok w h1
      · exact Or.inr (Or.inr ⟨q, by rw [h1, hst]⟩)
    · intro x
      have h1 := hcnt x
      have h2 := count_job_set x s.workers i Worker.recv (Worker.start gateway q) hw
      rw [hj] at h1
      rw [hst] at h2 ⊢
      simp only [Worker.job, List.count_cons, List.count_nil] at h1 h2 ⊢
      omega
    · intro h1
      have h2 := hord h1
      have hl : s.workers.length = 1 := by rw [inv.workers_len, h1]
      rcases single_worker s.workers i _ hl hw with ⟨hws, hi⟩
      rw [hws, hj] at h2
      simp only [hws, hi, hst]
      simpa [Worker.job] using h2
    · intro hc
      have := inv.closed_done hc _ hmem
      cases this
    · intro hd
      rcases List.mem_or_eq_of_mem_set hd with h1 | h1
      · have := (inv.done_drained h1).2
        rw [hj] at this
        cases this
      · rw [hst] at h1
        cases h1
  | takeDone i hw hj hc =>
    have hmem : Worker.recv ∈ s.workers := List.getElem?_mem hw
    refine ⟨?_, by simp⟩
    simp only [List.map_nil, List.append_nil]
    refine ⟨?_, ?_, hev, ?_, ?_, inv.main_ok, ?_, ?_, inv.closed_pending⟩
    · simp only [List.length_set]
      exact inv.workers_len
    · intro w hwm
      rcases List.mem_or_eq_of_mem_set hwm with h1 | h1
      · exact inv.workers_ok w h1
      · exact Or.inr (Or.inl h1)
    · intro x
      have h1 := hcnt x
      have h2 := count_job_set x s.workers i Worker.recv Worker.done hw
      simp only [Worker.job, List.count_nil] at h1 h2 ⊢
      omega
    · intro h1
      have h2 := hord h1
      have hl : s.workers.length = 1 := by rw [inv.workers_len, h1]
      rcases single_worker s.workers i _ hl hw with ⟨hws, hi⟩
      rw [hws] at h2
      simp only [hws, hi]
      simpa [Worker.job] using h2
    · intro hcl
      have := inv.closed_done hcl _ hmem
      cases this
    · intro _
      exact ⟨hc, hj⟩
  | send i resultEvents w next eventResult hm hw ho =>
    have hmem : w ∈ s.workers := List.getElem?_mem hw
    have hwq : ∃ q, w = Worker.sendOk q (gateway.events q) := by
      rcases inv.workers_ok w hmem with h1 | h1 | h1
      · rw [h1] at ho; simp [Worker.offer] at ho
      · rw [h1] at ho; simp [Worker.offer] at ho
      · exact h1
    rcases hwq with ⟨q, rfl⟩
    simp only [Worker.offer, Option.some.injEq, Prod.mk.injEq] at ho
    rcases ho with ⟨rfl, rfl⟩
    have hev' : resultEvents = arr.flatMap gateway.events := by
      rw [hm] at hev
      exact hev
    refine ⟨?_, by simp [Worker.job]⟩
    simp only [Worker.job, List.map_cons, List.map_nil]
    refine ⟨?_, ?_, ?_, ?_, ?_, ?_, ?_, ?_, inv.closed_pending⟩
    · simp only [List.length_set]
      exact inv.workers_len
    · intro w hwm
      rcases List.mem_or_eq_of_mem_set hwm with h1 | h1
      · exact inv.workers_ok w h1
      · exact Or.inl h1
    · simp [receiveResult, Main.events, hev', List.flatMap_append]
    · intro x
      have h1 := hcnt x
      have h2 := count_job_set x s.workers i _ Worker.recv hw
      simp only [Worker.job, List.count_append, List.count_cons, List.count_nil] at h1 h2 ⊢
      omega
    · intro h1
      have h2 := hord h1
      have hl : s.workers.length = 1 := by rw [inv.workers_len, h1]
      rcases single_worker s.workers i _ hl hw with ⟨hws, hi⟩
      rw [hws] at h2
      simp only [hws, hi]
      simpa [Worker.job] using h2
    · intro events err h1
      simp [receiveResult] at h1
    · intro hcl
      have := inv.closed_done hcl _ hmem
      cases this
    · intro hd
      rcases List.mem_or_eq_of_mem_set hd with h1 | h1
      · exact inv.done_drained h1
      · cases h1
  | closeResults hd hc =>
    refine ⟨?_, by simp⟩
    simp only [List.map_nil, List.append_nil]
    refine ⟨inv.workers_len, inv.workers_ok, hev, hcnt, hord, ?_,
      ?_, inv.done_drained, inv.closed_pending⟩
    · intro events err h1
      exact ⟨(inv.main_ok events err h1).1, rfl⟩
    · intro _
      exact hd
  | finish resultEvents hm hc =>
    refine ⟨?_, by simp⟩
    simp only [List.map_nil, List.append_nil]
    refine ⟨inv.workers_len, inv.workers_ok, ?_, hcnt, hord, ?_,
      inv.closed_done, inv.done_drained, inv.closed_pending⟩
    · rw [hm] at hev
      exact hev
    · intro events err h1
      simp only [Main.returned.injEq] at h1
      exact ⟨h1.2.symm, hc⟩

/-- Along every schedule the invariant holds with the arrival order extended
by the queries delivered, and every delivered result is the gateway's answer
to its query with a nil error. -/
theorem poolInv_run (gateway : Gateway) (queries : List EventRangeQuery) (workerCount : Nat)
    (hok : ∀ q ∈ queries, gateway.succeeds q) :
    ∀ (acts : List Action) (s s' : Pool) (arr : List EventRangeQuery),
      PoolInv gateway queries workerCount arr s → run gateway acts s = some s' →
      PoolInv gateway queries workerCount
          (arr ++ (deliveries gateway acts s).map Prod.fst) s' ∧
        ∀ p ∈ deliveries gateway acts s, p.2 = ⟨gateway.events p.1, none⟩ := by
  intro acts
  induction acts with
  | nil =>
    intro s s' arr inv h
    simp only [run, Option.some.injEq] at h
    subst h
    simpa [deliveries] using inv
  | cons a rest ih =>
    intro s s' arr inv h
    simp only [run] at h
    cases hs : step gateway a s with
    | none => rw [hs] at h; simp at h
    | some s1 =>
      rw [hs] at h
      simp only [Option.bind] at h
      rcases poolInv_moves gateway queries workerCount hok s s1 arr _ inv
        (moves_of_step gateway a s s1 hs) with ⟨inv1, hd1⟩
      rcases ih s1 s' _ inv1 h with ⟨inv2, hd2⟩
      simp only [deliveries, hs, List.map_append]
      refine ⟨?_, ?_⟩
      · rw [← List.append_assoc]
        exact inv2
      · intro p hp
        rcases List.mem_append.mp hp with h1 | h1
        · exact hd1 p h1
        · exact hd2 p h1

theorem measure_init (queries : List EventRangeQuery) (workerCount : Nat) :
    (Pool.init queries workerCount).measure = 4 * queries.length + workerCount + 3 := by
  have : ((List.replicate workerCount Worker.recv).map Worker.weight).sum = workerCount := by
    induction workerCount with
    | zero => rfl
    | succ n ih => rw [List.replicate_succ, List.map_cons, List.sum_cons, ih, Worker.weight]; omega
  simp only [Pool.measure, Pool.init, this, Main.isReturned]
  simp

/-- What `Get` holds when it has returned, every query of the plan succeeds
and at least one worker runs. -/
theorem poolInv_returned (gateway : Gateway) (queries : List EventRangeQuery)
    (workerCount : Nat) (hw : 1 ≤ workerCount) (s : Pool) (arr : List EventRangeQuery)
    (inv : PoolInv gateway queries workerCount arr s) (events : List BlockEvents)
    (err : Option GoError) (hm : s.main = Main.returned events err) :
    err = none ∧ arr.Perm queries ∧
      events = arr.flatMap gateway.events ∧ (workerCount = 1 → arr = queries) := by
  rcases inv.main_ok events err hm with ⟨herr, hcl⟩
  have hdone := inv.closed_done hcl
  have hne : s.workers ≠ [] := by
    intro h
    have := inv.workers_len
    rw [h] at this
    simp at this
    omega
  rcases List.exists_mem_of_ne_nil _ hne with ⟨w, hwm⟩
  have hd : Worker.done ∈ s.workers := (hdone w hwm) ▸ hwm
  rcases inv.done_drained hd with ⟨hjc, hj⟩
  have hp := inv.closed_pending hjc
  have hjob := flatMap_job_of_done s.workers hdone
  have hev := inv.merged_events
  refine ⟨herr, ?_, ?_, ?_⟩
  · rw [List.perm_iff_count]
    intro x
    have := inv.merged_count x
    rw [hjob, hj, hp] at this
    simpa using this
  · rw [hm] at hev
    exact hev
  · intro h1
    have := inv.merged_order h1
    rw [hjob, hj, hp] at this
    simpa using this

/-- Concatenating delivered results is concatenating the gateway's answers
to the delivered queries, when each result is such an answer. -/
theorem flatMap_deliveries (gateway : Gateway)
    (d : List (EventRangeQuery × EventWorkerResult))
    (h : ∀ p ∈ d, p.2 = ⟨gateway.events p.1, none⟩) :
    d.flatMap (fun p => p.2.Events) = (d.map Prod.fst).flatMap gateway.events := by
  induction d with
  | nil => rfl
  | cons p d ih =>
    rw [List.flatMap_cons, List.map_cons, List.flatMap_cons,
      ih (fun x hx => h x (by simp [hx])), h p (by simp)]

/-- The planner returns at once on an empty interval. -/
theorem makeEventQueries_empty_interval (events : List String)
    (startHeight endHeight blockCount fuel : Nat) (h : endHeight < startHeight)
    (hf : 1 ≤ fuel) :
    makeEventQueries fuel events startHeight endHeight blockCount = some [] := by
  obtain ⟨n, rfl⟩ : ∃ n, fuel = n + 1 := ⟨fuel - 1, by omega⟩
  unfold makeEventQueries
  rw [makeEventQueriesLoop]
  have : ¬ startHeight ≤ endHeight := by omega
  simp only [this, if_false]

/-- The planner returns a plan on an empty interval, and on a non-empty one
when the span is positive and no height wraps around. -/
theorem makeEventQueries_returns (events : List String)
    (startHeight endHeight blockCount : Nat)
    (hplan : endHeight < startHeight ∨ (1 ≤ blockCount ∧
      startHeight + subRangeCount startHeight endHeight blockCount * blockCount < u64Mod)) :
    ∃ fuel0 queries, ∀ fuel, fuel0 ≤ fuel →
      makeEventQueries fuel events startHeight endHeight blockCount = some queries := by
  by_cases hse : startHeight ≤ endHeight
  · rcases hplan with h | ⟨hm, hov⟩
    · omega
    · exact ⟨subRangeCount startHeight endHeight blockCount + 1,
        planSpec events startHeight endHeight blockCount, fun fuel hf =>
          makeEventQueries_eq_planSpec events startHeight endHeight blockCount hse hm hov
            fuel hf⟩
  · exact ⟨1, [], fun fuel hf =>
      makeEventQueries_empty_interval events startHeight endHeight blockCount fuel
        (by omega) hf⟩

/-! ## Properties of the planner -/

/-- C8 (amended): when the start height following the last sub-range,
`start + n*maxSpan` for `n` sub-ranges, is below `2^64`, so that no height
computation wraps around, the planner returns exactly the plan of the
specification: the sub-ranges
`[start + i*maxSpan, min(start + (i+1)*maxSpan - 1, stop)]` in ascending order,
each with one query per event type in input order. -/
theorem makeEventQueries_plan_order (events : List String) (start stop maxSpan : Nat)
    (hse : start ≤ stop) (hm : 1 ≤ maxSpan)
    (hov : start + subRangeCount start stop maxSpan * maxSpan < 2 ^ 64) :
    ∃ fuel, ∀ fuel', fuel ≤ fuel' →
      makeEventQueries fuel' events start stop maxSpan
        = some (planSpec events start stop maxSpan) :=
  ⟨subRangeCount start stop maxSpan + 1, fun fuel' hf =>
    makeEventQueries_eq_planSpec events start stop maxSpan hse hm hov fuel' hf⟩

/-- The planning example of the specification: `["A"]`, heights 1 to 25, span
10 gives `A[1,10], A[11,20], A[21,25]`. -/
theorem makeEventQueries_plan_order_witness :
    1 ≤ 25 ∧ 1 ≤ 10 ∧ 1 + subRangeCount 1 25 10 * 10 < 2 ^ 64 ∧
    planSpec ["A"] 1 25 10 = [⟨"A", 1, 10⟩, ⟨"A", 11, 20⟩, ⟨"A", 21, 25⟩] ∧
    ∃ fuel, ∀ fuel', fuel ≤ fuel' →
      makeEventQueries fuel' ["A"] 1 25 10 = some (planSpec ["A"] 1 25 10) :=
  ⟨by decide, by decide, by decide, by decide,
    makeEventQueries_plan_order ["A"] 1 25 10 (by decide) (by decide) (by decide)⟩

/-- C8 as stated fails: for `start = 2^63`, `stop = 2^63 + 1`,
`maxSpan = 2^63 + 1` the sum `start + maxSpan` wraps around and the planner
returns `A[2^63, 0], A[1, 2^63 + 1]`, not the single sub-range of the
specification. -/
theorem makeEventQueries_plan_order_counterexample :
    2 ^ 63 ≤ 2 ^ 63 + 1 ∧ 1 ≤ 2 ^ 63 + 1 ∧
    makeEventQueries 3 ["A"] (2 ^ 63) (2 ^ 63 + 1) (2 ^ 63 + 1)
      = some [⟨"A", 2 ^ 63, 0⟩, ⟨"A", 1, 2 ^ 63 + 1⟩] ∧
    ¬ ∃ fuel, makeEventQueries fuel ["A"] (2 ^ 63) (2 ^ 63 + 1) (2 ^ 63 + 1)
        = some (planSpec ["A"] (2 ^ 63) (2 ^ 63 + 1) (2 ^ 63 + 1)) := by
  refine ⟨by decide, by decide, by decide, ?_⟩
  rintro ⟨fuel, h⟩
  have h3 : makeEventQueries 3 ["A"] (2 ^ 63) (2 ^ 63 + 1) (2 ^ 63 + 1)
      = some [⟨"A", 2 ^ 63, 0⟩, ⟨"A", 1, 2 ^ 63 + 1⟩] := by decide
  have := makeEventQueries_fuel_unique h h3
  exact absurd this (by decide)

/-- C7 (amended): when the start height following the last sub-range,
`start + n*maxSpan` for `n` sub-ranges, is below `2^64`, the planner returns
`ceil((stop - start + 1) / maxSpan) * |events|` queries. -/
theorem makeEventQueries_length (events : List String) (start stop maxSpan : Nat)
    (hse : start ≤ stop) (hm : 1 ≤ maxSpan)
    (hov : start + subRangeCount start stop maxSpan * maxSpan < 2 ^ 64) :
    ∃ fuel queries, makeEventQueries fuel events start stop maxSpan = some queries ∧
      queries.length
        = ⌈((stop - start + 1 : ℕ) : ℚ) / (maxSpan : ℚ)⌉₊ * events.length := by
  refine ⟨subRangeCount start stop maxSpan + 1, planSpec events start stop maxSpan,
    makeEventQueries_eq_planSpec events start stop maxSpan hse hm hov _ (Nat.le_refl _), ?_⟩
  rw [length_planSpec, ceil_div_eq_subRangeCount start stop maxSpan hse hm]

theorem makeEventQueries_length_witness :
    1 ≤ 25 ∧ 1 ≤ 10 ∧ 1 + subRangeCount 1 25 10 * 10 < 2 ^ 64 ∧
    ∃ fuel queries, makeEventQueries fuel ["A", "B"] 1 25 10 = some queries ∧
      queries.length
        = ⌈((25 - 1 + 1 : ℕ) : ℚ) / ((10 : ℕ) : ℚ)⌉₊ * ["A", "B"].length :=
  ⟨by decide, by decide, by decide,
    makeEventQueries_length ["A", "B"] 1 25 10 (by decide) (by decide) (by decide)⟩

/-- C7 as stated fails: for `start = stop = 2^64 - 1` and `maxSpan = 1` the
start height wraps around to 0 after the first sub-range and the loop
condition holds forever, so the planner returns no plan at all. -/
theorem makeEventQueries_length_counterexample :
    2 ^ 64 - 1 ≤ 2 ^ 64 - 1 ∧ 2 ^ 64 - 1 < 2 ^ 64 ∧
    ¬ ∃ fuel queries, makeEventQueries fuel ["A"] (2 ^ 64 - 1) (2 ^ 64 - 1) 1 = some queries ∧
      queries.length
        = ⌈((2 ^ 64 - 1 - (2 ^ 64 - 1) + 1 : ℕ) : ℚ) / ((1 : ℕ) : ℚ)⌉₊ * ["A"].length := by
  refine ⟨by decide, by decide, ?_⟩
  rintro ⟨fuel, queries, h, _⟩
  have hn := makeEventQueriesLoop_max_end ["A"] 1 fuel (2 ^ 64 - 1) []
    (by unfold u64Mod; decide)
  unfold makeEventQueries at h
  have he : u64Mod - 1 = 2 ^ 64 - 1 := rfl
  rw [he] at hn
  rw [hn] at h
  exact Option.noConfusion h

/-- C1 (amended): when the start height following the last sub-range,
`start + n*maxSpan` for `n` sub-ranges, is below `2^64` and the event types
are pairwise distinct, the planner returns a plan whose sub-ranges, per event
type, are contiguous, non-overlapping, of length at most `maxSpan`, start at
`start`, end at `stop` and have union exactly `[start, stop]`. -/
theorem makeEventQueries_coverage (events : List String) (start stop maxSpan : Nat)
    (hse : start ≤ stop) (hm : 1 ≤ maxSpan)
    (hov : start + subRangeCount start stop maxSpan * maxSpan < 2 ^ 64)
    (hnd : events.Nodup) :
    ∃ fuel queries, makeEventQueries fuel events start stop maxSpan = some queries ∧
      ∀ t ∈ events, Coverage start stop maxSpan (rangesOf t queries) := by
  refine ⟨subRangeCount start stop maxSpan + 1, planSpec events start stop maxSpan,
    makeEventQueries_eq_planSpec events start stop maxSpan hse hm hov _ (Nat.le_refl _), ?_⟩
  intro t ht
  rw [rangesOf_planSpec t events start stop maxSpan ht hnd]
  exact coverage_subRanges start stop maxSpan hse hm

theorem makeEventQueries_coverage_witness :
    1 ≤ 25 ∧ 1 ≤ 10 ∧ 1 + subRangeCount 1 25 10 * 10 < 2 ^ 64 ∧ ["A", "B"].Nodup ∧
    ∃ fuel queries, makeEventQueries fuel ["A", "B"] 1 25 10 = some queries ∧
      ∀ t ∈ ["A", "B"], Coverage 1 25 10 (rangesOf t queries) :=
  ⟨by decide, by decide, by decide, by decide,
    makeEventQueries_coverage ["A", "B"] 1 25 10 (by decide) (by decide) (by decide)
      (by decide)⟩

/-- C1 as stated fails in two ways.  For `start = stop = 2^63` and
`maxSpan = 2^63 + 1` the sum `start + maxSpan` wraps around, the plan is
`A[2^63, 0], A[1, 2^63]` and height 1 lies in its union but not in
`[start, stop]`.  For the event list `["A", "A"]` every sub-range is planned
twice for event type `A`, so its sub-ranges are not contiguous. -/
theorem makeEventQueries_coverage_counterexample :
    (2 ^ 63 ≤ 2 ^ 63 ∧ 1 ≤ 2 ^ 63 + 1 ∧ ["A"] ≠ [] ∧
      ¬ ∃ fuel queries, makeEventQueries fuel ["A"] (2 ^ 63) (2 ^ 63) (2 ^ 63 + 1)
          = some queries ∧
        ∀ t ∈ ["A"], Coverage (2 ^ 63) (2 ^ 63) (2 ^ 63 + 1) (rangesOf t queries)) ∧
    (1 ≤ 25 ∧ 1 ≤ 10 ∧ ["A", "A"] ≠ [] ∧
      ¬ ∃ fuel queries, makeEventQueries fuel ["A", "A"] 1 25 10 = some queries ∧
        ∀ t ∈ ["A", "A"], Coverage 1 25 10 (rangesOf t queries)) := by
  refine ⟨⟨by decide, by decide, by decide, ?_⟩, ⟨by decide, by decide, by decide, ?_⟩⟩
  · rintro ⟨fuel, queries, h, hc⟩
    have h3 : makeEventQueries 3 ["A"] (2 ^ 63) (2 ^ 63) (2 ^ 63 + 1)
        = some [⟨"A", 2 ^ 63, 0⟩, ⟨"A", 1, 2 ^ 63⟩] := by decide
    have hq := makeEventQueries_fuel_unique h h3
    subst hq
    have hu := (hc "A" (by simp)).2.2.2.2.2 1
    have hex : ∃ r ∈ rangesOf "A" [⟨"A", 2 ^ 63, 0⟩, ⟨"A", 1, 2 ^ 63⟩], r.1 ≤ 1 ∧ 1 ≤ r.2 :=
      ⟨(1, 2 ^ 63), by decide, by decide, by decide⟩
    have := (hu.mpr hex).1
    exact absurd this (by decide)
  · rintro ⟨fuel, queries, h, hc⟩
    have h4 : makeEventQueries 4 ["A", "A"] 1 25 10
        = some [⟨"A", 1, 10⟩, ⟨"A", 1, 10⟩, ⟨"A", 11, 20⟩, ⟨"A", 11, 20⟩,
            ⟨"A", 21, 25⟩, ⟨"A", 21, 25⟩] := by decide
    have hq := makeEventQueries_fuel_unique h h4
    subst hq
    have hch := (hc "A" (by simp)).1
    have hr : rangesOf "A" [⟨"A", 1, 10⟩, ⟨"A", 1, 10⟩, ⟨"A", 11, 20⟩, ⟨"A", 11, 20⟩,
        ⟨"A", 21, 25⟩, ⟨"A", 21, 25⟩]
        = [(1, 10), (1, 10), (11, 20), (11, 20), (21, 25), (21, 25)] := by decide
    rw [hr] at hch
    exact absurd (List.Chain'.rel_head hch) (by decide)

/-- C9: with `blockCount = 0` the planner does not fail with an error; its loop
never exits, for any amount of fuel. -/
theorem makeEventQueries_zero_span_diverges :
    ¬ ∃ fuel result, makeEventQueries fuel ["A"] 1 25 0 = some result := by
  rintro ⟨fuel, result, h⟩
  unfold makeEventQueries at h
  rw [makeEventQueriesLoop_zero_span ["A"] 25 (by unfold u64Mod; decide) fuel 1 [] (by decide)] at h
  exact Option.noConfusion h


/-! ## Properties of the aggregator, the worker and the resolver -/

/-- C2: whenever a result in the stream consumed by `Get` carries an error,
`Get` returns the error of the first such result in arrival order together
with a nil event list, however many successful results were merged before
it. -/
theorem Get_failure_propagation (pre post : List EventWorkerResult) (r : EventWorkerResult)
    (err : GoError) (resultEvents : List BlockEvents)
    (hpre : ∀ x ∈ pre, x.Error = none) (hr : r.Error = some err) :
    collectResults (pre ++ r :: post) resultEvents = ([], some err) :=
  collectResults_first_error pre post r err resultEvents hpre hr

/-- Two successes are merged before the failure arrives; `Get` still returns
the error alone. -/
theorem Get_failure_propagation_witness :
    (∀ x ∈ ([⟨[⟨1, ["x"]⟩], none⟩, ⟨[⟨2, ["y"]⟩], none⟩] : List EventWorkerResult),
      x.Error = none) ∧
    (⟨[], some "unavailable"⟩ : EventWorkerResult).Error = some "unavailable" ∧
    collectResults ([⟨[⟨1, ["x"]⟩], none⟩, ⟨[⟨2, ["y"]⟩], none⟩] ++
        (⟨[], some "unavailable"⟩ : EventWorkerResult) :: [⟨[⟨3, ["z"]⟩], none⟩]) []
      = ([], some "unavailable") :=
  ⟨by decide, rfl,
    Get_failure_propagation [⟨[⟨1, ["x"]⟩], none⟩, ⟨[⟨2, ["y"]⟩], none⟩]
      [⟨[⟨3, ["z"]⟩], none⟩] ⟨[], some "unavailable"⟩ "unavailable" [] (by decide) rfl⟩

/-- C4: for a query on which `GetEvents` fails, `eventWorker` sends two
results: the error result and then, falling through, a second result with a
nil error. -/
theorem eventWorker_double_emission :
    eventWorker ⟨.ok 100, fun _ _ _ => ([], some "unavailable")⟩ [⟨"A", 1, 10⟩]
      = [⟨[], some "unavailable"⟩, ⟨[], none⟩] ∧
    (eventWorker ⟨.ok 100, fun _ _ _ => ([], some "unavailable")⟩ [⟨"A", 1, 10⟩]).length
      ≠ [(⟨"A", 1, 10⟩ : EventRangeQuery)].length := by
  constructor
  · decide
  · decide

/-- C5: with the gateway reporting head height `H`, the resolver returns
`(H - last, H)` for `start = 0` and `last ≤ H`, `(start, H)` for `start ≠ 0`
and `end = 0`, and `(start, end)` unchanged when both are non-zero, whatever
the gateway would answer; the error is nil each time. -/
theorem CalculateStartEnd_rules (gateway : Gateway) (H start stop last : Nat)
    (hH : gateway.GetLatestBlock = .ok H) (hHb : H < 2 ^ 64) :
    (last ≤ H → CalculateStartEnd gateway 0 stop last = (H - last, H, none)) ∧
    (start ≠ 0 → CalculateStartEnd gateway start 0 last = (start, H, none)) ∧
    (start ≠ 0 → stop ≠ 0 →
      ∀ g : Gateway, CalculateStartEnd g start stop last = (start, stop, none)) := by
  refine ⟨?_, ?_, ?_⟩
  · intro hl
    have : u64sub H last = H - last := by
      unfold u64sub u64Mod
      have : last % 2 ^ 64 = last := Nat.mod_eq_of_lt (by omega)
      omega
    simp [CalculateStartEnd, hH, this]
  · intro hs
    simp [CalculateStartEnd, hH, hs]
  · intro hs he g
    simp [CalculateStartEnd, hs, he]

/-- The resolver examples of the specification, head height 100. -/
theorem CalculateStartEnd_rules_witness :
    CalculateStartEnd ⟨.ok 100, fun _ _ _ => ([], none)⟩ 0 0 10 = (90, 100, none) ∧
    CalculateStartEnd ⟨.ok 100, fun _ _ _ => ([], none)⟩ 5 0 10 = (5, 100, none) ∧
    CalculateStartEnd ⟨.error "down", fun _ _ _ => ([], none)⟩ 5 50 10 = (5, 50, none) :=
  ⟨(CalculateStartEnd_rules ⟨.ok 100, fun _ _ _ => ([], none)⟩ 100 5 0 10 rfl
      (by decide)).1 (by decide),
    (CalculateStartEnd_rules ⟨.ok 100, fun _ _ _ => ([], none)⟩ 100 5 0 10 rfl
      (by decide)).2.1 (by decide),
    (CalculateStartEnd_rules ⟨.ok 100, fun _ _ _ => ([], none)⟩ 100 5 50 10 rfl
      (by decide)).2.2 (by decide) (by decide) _⟩

/-- C6: with head height 100 and `last = 101` the resolver returns the start
height `2^64 - 1`, the wrap-around of `100 - 101`, with a nil error. -/
theorem CalculateStartEnd_underflow :
    CalculateStartEnd ⟨.ok 100, fun _ _ _ => ([], none)⟩ 0 0 101
      = (2 ^ 64 - 1, 100, none) ∧
    (2 ^ 64 - 1 : Nat) = (100 + 2 ^ 64 - 101) % 2 ^ 64 := by
  constructor
  · decide
  · decide

/-! ## Properties of the worker pool -/

/-- C3 (amended): let `Get` be called with at least one worker, on an empty
interval or with a positive span and no height wrapping around, and let
`GetEvents` succeed on every planned query.  Then the planner returns a plan,
some schedule makes `Get` return, every schedule is finite and can be
continued as long as `Get` has not returned, and when `Get` has returned it
returned a nil error and the concatenation, in the order the results arrived,
of the events of the results it received; these are the gateway's answers to
the planned queries, each query exactly once; with one worker the result is
the concatenation of the answers in plan order. -/
theorem Get_success_aggregation (gateway : Gateway) (events : List String)
    (startHeight endHeight blockCount workerCount : Nat) (hw : 1 ≤ workerCount)
    (hplan : endHeight < startHeight ∨ (1 ≤ blockCount ∧
      startHeight + subRangeCount startHeight endHeight blockCount * blockCount < 2 ^ 64))
    (hok : ∀ fuel queries,
      makeEventQueries fuel events startHeight endHeight blockCount = some queries →
      ∀ q ∈ queries, gateway.succeeds q) :
    ∃ fuel0 queries,
      (∀ fuel, fuel0 ≤ fuel →
        makeEventQueries fuel events startHeight endHeight blockCount = some queries) ∧
      (∀ fuel, fuel0 ≤ fuel → ∃ schedule s result,
        Get gateway fuel events startHeight endHeight blockCount workerCount schedule = some s ∧
        s.main = Main.returned result none) ∧
      (∀ fuel schedule s, fuel0 ≤ fuel →
        Get gateway fuel events startHeight endHeight blockCount workerCount schedule = some s →
        schedule.length ≤ 4 * queries.length + workerCount + 3 ∧
        (s.main.isReturned = false → ∃ a s',
          Get gateway fuel events startHeight endHeight blockCount workerCount
            (schedule ++ [a]) = some s') ∧
        (∀ result err, s.main = Main.returned result err →
          err = none ∧
          result = (deliveries gateway schedule (Pool.init queries workerCount)).flatMap
            (fun d => d.2.Events) ∧
          (∀ d ∈ deliveries gateway schedule (Pool.init queries workerCount),
            d.2 = ⟨gateway.events d.1, none⟩) ∧
          ((deliveries gateway schedule (Pool.init queries workerCount)).map
            Prod.fst).Perm queries ∧
          (workerCount = 1 → result = queries.flatMap gateway.events))) := by
  rcases makeEventQueries_returns events startHeight endHeight blockCount hplan with
    ⟨fuel0, queries, hq⟩
  have hokq : ∀ q ∈ queries, gateway.succeeds q := hok fuel0 queries (hq fuel0 (Nat.le_refl _))
  have hget : ∀ fuel schedule, fuel0 ≤ fuel →
      Get gateway fuel events startHeight endHeight blockCount workerCount schedule
        = run gateway schedule (Pool.init queries workerCount) := by
    intro fuel schedule hf
    simp only [Get, hq fuel hf]
  have hret : ∀ (schedule : List Action) (s : Pool),
      run gateway schedule (Pool.init queries workerCount) = some s →
      ∀ result err, s.main = Main.returned result err →
        err = none ∧
        result = (deliveries gateway schedule (Pool.init queries workerCount)).flatMap
          (fun d => d.2.Events) ∧
        (∀ d ∈ deliveries gateway schedule (Pool.init queries workerCount),
          d.2 = ⟨gateway.events d.1, none⟩) ∧
        ((deliveries gateway schedule (Pool.init queries workerCount)).map
          Prod.fst).Perm queries ∧
        (workerCount = 1 → result = queries.flatMap gateway.events) := by
    intro schedule s hrun result err hm
    rcases poolInv_run gateway queries workerCount hokq schedule _ s []
      (poolInv_init gateway queries workerCount) hrun with ⟨inv, hd⟩
    rw [List.nil_append] at inv
    rcases poolInv_returned gateway queries workerCount hw s _ inv result err hm with
      ⟨herr, hperm, hev, hone⟩
    refine ⟨herr, ?_, hd, hperm, ?_⟩
    · rw [hev, flatMap_deliveries gateway _ hd]
    · intro h1
      rw [hev, hone h1]
  refine ⟨fuel0, queries, hq, ?_, ?_⟩
  · intro fuel hf
    rcases reaches_return gateway _ (Pool.init queries workerCount) (Nat.le_refl _) with
      ⟨schedule, s, hrun, hr⟩
    cases hm : s.main with
    | running acc => rw [hm] at hr; simp [Main.isReturned] at hr
    | returned result err =>
      have herr := (hret schedule s hrun result err hm).1
      subst herr
      exact ⟨schedule, s, result, by rw [hget fuel schedule hf]; exact hrun, hm⟩
  · intro fuel schedule s hf hrun
    rw [hget fuel schedule hf] at hrun
    refine ⟨?_, ?_, hret schedule s hrun⟩
    · have := run_length_le gateway schedule _ s hrun
      rw [measure_init] at this
      omega
    · intro hr
      cases hm : s.main with
      | running acc =>
        rcases progress gateway s acc hm with ⟨a, s', hs⟩
        refine ⟨a, s', ?_⟩
        rw [hget fuel _ hf, run_append, hrun]
        simp only [Option.bind, run, hs]
      | returned result err => rw [hm] at hr; simp [Main.isReturned] at hr

/-- `Get(["A"], 1, 20, 10, 2)` against a gateway that answers every query with
one block: the theorem applies, and on the schedule where the second query is
answered first `Get` returns the events of both queries in arrival order. -/
theorem Get_success_aggregation_witness :
    1 ≤ 2 ∧
    (20 < 1 ∨ (1 ≤ 10 ∧ 1 + subRangeCount 1 20 10 * 10 < 2 ^ 64)) ∧
    Get ⟨.ok 100, fun t a _ => ([⟨a, [t]⟩], none)⟩ 3 ["A"] 1 20 10 2
        [Action.feed, Action.feed, Action.take 0, Action.take 1, Action.send 1, Action.send 0,
          Action.closeJobs, Action.take 0, Action.take 1, Action.closeResults, Action.finish]
      = some ⟨[], [], true, [Worker.done, Worker.done], true,
          Main.returned [⟨11, ["A"]⟩, ⟨1, ["A"]⟩] none⟩ ∧
    deliveries ⟨.ok 100, fun t a _ => ([⟨a, [t]⟩], none)⟩
        [Action.feed, Action.feed, Action.take 0, Action.take 1, Action.send 1, Action.send 0,
          Action.closeJobs, Action.take 0, Action.take 1, Action.closeResults, Action.finish]
        (Pool.init [⟨"A", 1, 10⟩, ⟨"A", 11, 20⟩] 2)
      = [(⟨"A", 11, 20⟩, ⟨[⟨11, ["A"]⟩], none⟩), (⟨"A", 1, 10⟩, ⟨[⟨1, ["A"]⟩], none⟩)] ∧
    ∃ fuel0 queries,
      (∀ fuel, fuel0 ≤ fuel → makeEventQueries fuel ["A"] 1 20 10 = some queries) ∧
      (∀ fuel, fuel0 ≤ fuel → ∃ schedule s result,
        Get ⟨.ok 100, fun t a _ => ([⟨a, [t]⟩], none)⟩ fuel ["A"] 1 20 10 2 schedule = some s ∧
        s.main = Main.returned result none) ∧
      (∀ fuel schedule s, fuel0 ≤ fuel →
        Get ⟨.ok 100, fun t a _ => ([⟨a, [t]⟩], none)⟩ fuel ["A"] 1 20 10 2 schedule = some s →
        schedule.length ≤ 4 * queries.length + 2 + 3 ∧
        (s.main.isReturned = false → ∃ a s',
          Get ⟨.ok 100, fun t a _ => ([⟨a, [t]⟩], none)⟩ fuel ["A"] 1 20 10 2
            (schedule ++ [a]) = some s') ∧
        (∀ result err, s.main = Main.returned result err →
          err = none ∧
          result = (deliveries ⟨.ok 100, fun t a _ => ([⟨a, [t]⟩], none)⟩ schedule
            (Pool.init queries 2)).flatMap (fun d => d.2.Events) ∧
          (∀ d ∈ deliveries ⟨.ok 100, fun t a _ => ([⟨a, [t]⟩], none)⟩ schedule
              (Pool.init queries 2),
            d.2 = ⟨Gateway.events ⟨.ok 100, fun t a _ => ([⟨a, [t]⟩], none)⟩ d.1, none⟩) ∧
          ((deliveries ⟨.ok 100, fun t a _ => ([⟨a, [t]⟩], none)⟩ schedule
            (Pool.init queries 2)).map Prod.fst).Perm queries ∧
          (2 = 1 → result
            = queries.flatMap (Gateway.events ⟨.ok 100, fun t a _ => ([⟨a, [t]⟩], none)⟩)))) :=
  ⟨by decide, Or.inr ⟨by decide, by decide⟩, by decide, by decide,
    Get_success_aggregation ⟨.ok 100, fun t a _ => ([⟨a, [t]⟩], none)⟩ ["A"] 1 20 10 2
      (by decide) (Or.inr ⟨by decide, by decide⟩) (fun _ _ _ _ _ => rfl)⟩

/-- C3 as stated fails in two ways.  With `workerCount = 0` no worker runs,
`results` is closed at once and `Get` returns a nil error and no events
although `GetEvents` would answer the planned query with one block.  With
`blockCount = 0` the planner never returns, so `Get` reaches no state at all,
whatever the schedule. -/
theorem Get_success_aggregation_counterexample :
    (Gateway.succeeds ⟨.ok 100, fun t a _ => ([⟨a, [t]⟩], none)⟩ ⟨"A", 1, 10⟩ ∧
      Gateway.events ⟨.ok 100, fun t a _ => ([⟨a, [t]⟩], none)⟩ ⟨"A", 1, 10⟩
        = [⟨1, ["A"]⟩] ∧
      makeEventQueries 2 ["A"] 1 10 10 = some [⟨"A", 1, 10⟩] ∧
      Get ⟨.ok 100, fun t a _ => ([⟨a, [t]⟩], none)⟩ 2 ["A"] 1 10 10 0
          [Action.closeResults, Action.finish]
        = some ⟨[⟨"A", 1, 10⟩], [], false, [], true, Main.returned [] none⟩ ∧
      ¬ ∃ arrival : List EventRangeQuery, arrival.Perm [⟨"A", 1, 10⟩] ∧
        ([] : List BlockEvents)
          = arrival.flatMap (Gateway.events ⟨.ok 100, fun t a _ => ([⟨a, [t]⟩], none)⟩)) ∧
    ¬ ∃ fuel schedule s,
      Get ⟨.ok 100, fun t a _ => ([⟨a, [t]⟩], none)⟩ fuel ["A"] 1 25 0 1 schedule = some s := by
  refine ⟨⟨rfl, rfl, by decide, by decide, ?_⟩, ?_⟩
  · rintro ⟨arrival, hp, he⟩
    have := List.perm_singleton.mp hp
    subst this
    exact absurd he (by decide)
  · rintro ⟨fuel, schedule, s, h⟩
    have hn : makeEventQueries fuel ["A"] 1 25 0 = none := by
      unfold makeEventQueries
      exact makeEventQueriesLoop_zero_span ["A"] 25 (by unfold u64Mod; decide) fuel 1 []
        (by decide)
    simp only [Get, hn] at h
    exact Option.noConfusion h

/-- C10: `Get(["A"], 1, 30, 10, 1)` against a gateway whose `GetEvents` fails.
After the first query's error result is received `Get` has returned; the
worker stands at its second send on `results`, the feeding goroutine stands
at `jobChan <- query` with the buffer full, and no goroutine can ever move
again. -/
theorem Get_leaks_goroutines :
    makeEventQueries 4 ["A"] 1 30 10
      = some [⟨"A", 1, 10⟩, ⟨"A", 11, 20⟩, ⟨"A", 21, 30⟩] ∧
    run ⟨.ok 100, fun _ _ _ => ([], some "unavailable")⟩
        [Action.feed, Action.take 0, Action.send 0, Action.feed]
        (Pool.init [⟨"A", 1, 10⟩, ⟨"A", 11, 20⟩, ⟨"A", 21, 30⟩] 1)
      = some ⟨[⟨"A", 21, 30⟩], [⟨"A", 11, 20⟩], false, [Worker.sendOk ⟨"A", 1, 10⟩ []], false,
          Main.returned [] (some "unavailable")⟩ ∧
    ¬ ∃ a s', step ⟨.ok 100, fun _ _ _ => ([], some "unavailable")⟩ a
        ⟨[⟨"A", 21, 30⟩], [⟨"A", 11, 20⟩], false, [Worker.sendOk ⟨"A", 1, 10⟩ []], false,
          Main.returned [] (some "unavailable")⟩ = some s' := by
  refine ⟨by decide, by decide, ?_⟩
  rintro ⟨a, s', h⟩
  cases a with
  | feed => simp [step] at h
  | closeJobs => simp [step] at h
  | take i => cases i <;> simp [step] at h
  | send i => simp [step] at h
  | closeResults => simp [step] at h
  | finish => simp [step] at h


end Events
